import Mathlib

/-! go-stats: a shallow embedding of `stats.go`

The Go package `stats` records Prometheus metrics for HTTP requests, database
calls and arbitrary functions.  This file embeds its pure helpers
(`formatArgs`, `extractRequestPath`, `parseRequestUrl`, `getRequestSize`,
`timeSince`) and its recording entry points as Lean functions over an explicit
metric state, and proves properties of them.

Conventions of the embedding

* A Go `string` is the list of its bytes, which need not be valid UTF-8;
  `goString` gives the bytes of a string literal.
* A Go run-time panic (slice bound, nil dereference, a panic raised by the
  metrics library) is the result `none`.
* The clock is an input: every reading of `time.Since(start)` is passed in as
  a number of nanoseconds.
* A `float64` is the rational number it denotes; conversions and divisions
  round to the nearest number with 53 significant bits, ties to even.
* Go `int` is the 64-bit two's-complement integer.
-/

namespace GoStats

/-! ## Strings -/

/-- A Go `string`: a sequence of bytes. -/
abbrev GoString := List UInt8

/-- The Go string literal with the given text: its UTF-8 encoding. -/
def goString (s : String) : GoString := s.data.flatMap String.utf8EncodeChar

/-- Go `len(s)` for a string: the number of bytes. -/
def len (s : GoString) : Nat := s.length

/-- Go `strings.HasPrefix`. -/
def hasPrefix : GoString → GoString → Bool
  | _, [] => true
  | [], _ :: _ => false
  | c :: s, d :: p => decide (c = d) && hasPrefix s p

/-- Go `strings.Index`: the offset of the first occurrence of `sub` in `s`, or
`none` where Go returns `-1`. -/
def stringsIndex : GoString → GoString → Option Nat
  | [], sub => if sub = [] then some 0 else none
  | c :: s, sub =>
    if hasPrefix (c :: s) sub then some 0
    else (stringsIndex s sub).map (· + 1)

/-- Go `strings.Replace(s, old, new, 1)`: when `old` does not occur, `s` is
returned; otherwise the text before the first occurrence, then `new`, then the
text after that occurrence.  (An empty `old` occurs at offset 0.) -/
def stringsReplace1 (s old new : GoString) : GoString :=
  match stringsIndex s old with
  | none => s
  | some j => s.take j ++ new ++ s.drop (j + old.length)

/-- Go `strings.Split(s, sep)` for a separator of one byte, as at its only
call site (`"/"`).  The result always has at least one element. -/
def stringsSplit (sep : UInt8) : GoString → List GoString
  | [] => [[]]
  | c :: s =>
    if c = sep then [] :: stringsSplit sep s
    else
      match stringsSplit sep s with
      | [] => [[c]]
      | seg :: rest => (c :: seg) :: rest

/-- Go `strings.Join(elems, sep)`. -/
def stringsJoin : List GoString → GoString → GoString
  | [], _ => []
  | e :: es, sep => es.foldl (fun b s => b ++ sep ++ s) e

/-- The number of bytes of the well-formed UTF-8 sequence at the head of `s`
(no overlong form, no surrogate, nothing above `U+10FFFF`), and 0 when `s` does
not start with one. -/
def utf8SeqLen : GoString → ℕ
  | [] => 0
  | b0 :: s =>
    if b0 < 0x80 then 1
    else if 0xC2 ≤ b0 ∧ b0 ≤ 0xDF then
      match s with
      | b1 :: _ => if 0x80 ≤ b1 ∧ b1 ≤ 0xBF then 2 else 0
      | _ => 0
    else if 0xE0 ≤ b0 ∧ b0 ≤ 0xEF then
      match s with
      | b1 :: b2 :: _ =>
        if (if b0 = 0xE0 then 0xA0 else 0x80) ≤ b1 ∧ b1 ≤ (if b0 = 0xED then 0x9F else 0xBF)
            ∧ 0x80 ≤ b2 ∧ b2 ≤ 0xBF then 3
        else 0
      | _ => 0
    else if 0xF0 ≤ b0 ∧ b0 ≤ 0xF4 then
      match s with
      | b1 :: b2 :: b3 :: _ =>
        if (if b0 = 0xF0 then 0x90 else 0x80) ≤ b1 ∧ b1 ≤ (if b0 = 0xF4 then 0x8F else 0xBF)
            ∧ 0x80 ≤ b2 ∧ b2 ≤ 0xBF ∧ 0x80 ≤ b3 ∧ b3 ≤ 0xBF then 4
        else 0
      | _ => 0
    else 0

/-- The loop of `utf8.ValidString`: sequence after sequence is consumed; `fuel`
bounds the number of sequences. -/
def utf8ValidLoop : ℕ → GoString → Bool
  | _, [] => true
  | 0, _ :: _ => false
  | fuel + 1, b :: s =>
    match utf8SeqLen (b :: s) with
    | 0 => false
    | k + 1 => utf8ValidLoop fuel (s.drop k)

/-- Go `utf8.ValidString`: the string consists of well-formed UTF-8
sequences. -/
def utf8ValidString (s : GoString) : Bool := utf8ValidLoop s.length s

/-- The byte of the decimal digit `d`: `'0' + d`. -/
def digitByte (d : ℕ) : UInt8 := (48 + d).toUInt8

/-- The decimal digits of `n`, most significant first; `fuel` bounds the
number of digits. -/
def decimalDigits : ℕ → ℕ → GoString
  | 0, _ => []
  | fuel + 1, n =>
    if n < 10 then [digitByte n]
    else decimalDigits fuel (n / 10) ++ [digitByte (n % 10)]

/-- Go `strconv.Itoa`: the decimal digits, after a `-` for a negative
number. -/
def strconvItoa (n : ℤ) : GoString :=
  match n with
  | Int.ofNat m => decimalDigits (m + 1) m
  | Int.negSucc m => 45 :: decimalDigits (m + 2) (m + 1)

/-! ## Argument formatting -/

/-- A few kinds of Go values that can be passed as `interface{}`. -/
inductive Value where
  | str (s : GoString)
  | int (n : Int)
  | bool (b : Bool)
  | nil
  deriving DecidableEq, Repr

/-- The rendering of `fmt.Sprintf("%v", v)` for these values. -/
def sprintV : Value → GoString
  | .str s => s
  | .int n => strconvItoa n
  | .bool b => if b then goString "true" else goString "false"
  | .nil => goString "<nil>"

/-- `formatArgs` of `stats.go`.  The rendering of the verb `%v` is the
parameter `render`, so that the argument values may be of any type. -/
def formatArgs {α : Type} (render : α → GoString) (args : List α) : GoString :=
  if args.length = 0 then []
  else
    args.foldl
      (fun ret val => if ret = [] then render val else ret ++ goString "_" ++ render val)
      []

/-! ## Path normalisation -/

/-- `extractRequestPath` of `stats.go` (47 is the byte `/`).  The slice
expression `itemList[0:3]` panics when the slice has fewer than three
elements. -/
def extractRequestPath (path : GoString) : Option GoString :=
  let itemList := stringsSplit 47 path
  if len path ≥ 4 then
    if 3 ≤ itemList.length then some (stringsJoin (itemList.take 3) (goString "/"))
    else none
  else some path

/-- One matched route parameter of the web framework (`gin.Param`). -/
structure Param where
  Key : GoString
  Value : GoString
  deriving DecidableEq, Repr

/-- The fields of `http.Request` that `stats.go` reads.  `URL` is `none` for a
nil `r.URL` and otherwise holds `r.URL.Path`; `Header` lists the header map in
the order in which the `range` loop visits it. -/
structure Request where
  Method : GoString
  URL : Option GoString
  Proto : GoString
  Header : List (GoString × List GoString)
  Host : GoString
  ContentLength : ℤ
  deriving DecidableEq, Repr

/-- The parts of `gin.Context` that `stats.go` reads: the request, the bound
route parameters, and the response writer's `Status()` and `Size()`. -/
structure Context where
  Request : Request
  Params : List Param
  WriterStatus : ℤ
  WriterSize : ℤ
  deriving DecidableEq, Repr

/-- `parseRequestUrl` of `stats.go`.  Reading `c.Request.URL.Path` through a
nil `URL` panics. -/
def parseRequestUrl (c : Context) : Option GoString :=
  match c.Request.URL with
  | none => none
  | some path =>
    some (c.Params.foldl
      (fun url p => stringsReplace1 url p.Value (goString ":" ++ p.Key)) path)

/-! ## Numbers -/

/-- Reduction of an integer into the range of a 64-bit signed `int`. -/
def wrapInt (x : ℤ) : ℤ := (x + 2 ^ 63) % 2 ^ 64 - 2 ^ 63

/-- Rounding of a rational to an integer, to nearest, ties to even. -/
def roundHalfEven (x : ℚ) : ℤ :=
  let f := ⌊x⌋
  let r := x - f
  if r < 1 / 2 then f
  else if 1 / 2 < r then f + 1
  else if f % 2 = 0 then f else f + 1

/-- The nearest number with 53 significant bits to a positive rational, ties to
even: the unit in the last place is `2 ^ (⌊log₂ q⌋ - 52)`. -/
def roundPos (q : ℚ) : ℚ :=
  let e : ℤ := Int.log 2 q - 52
  roundHalfEven (q / 2 ^ e) * 2 ^ e

/-- Rounding to `float64` (round to nearest, ties to even).  The exponent is
not bounded; for the magnitudes that occur in this package (integers of 64 bits
and their quotients by `10 ^ 9`) neither overflow nor subnormal numbers
arise. -/
def f64 (q : ℚ) : ℚ :=
  if 0 < q then roundPos q
  else if q < 0 then -roundPos (-q)
  else 0

/-- `timeSince` of `stats.go`; `elapsed` is the reading of `time.Since(start)`
in nanoseconds, `time.Second` is `10 ^ 9`. -/
def timeSince (elapsed : ℤ) : ℚ :=
  let minv := f64 (1 / 1000)
  let val := f64 (f64 elapsed / f64 (10 ^ 9 : ℤ))
  if val < minv then minv else val

/-- `getRequestSize` of `stats.go`. -/
def getRequestSize (r : Request) : ℚ :=
  let size : ℤ :=
    match r.URL with
    | some path => len path
    | none => 0
  let size := wrapInt (size + len r.Method)
  let size := wrapInt (size + len r.Proto)
  let size :=
    r.Header.foldl
      (fun size h => h.2.foldl (fun size value => wrapInt (size + len value))
        (wrapInt (size + len h.1)))
      size
  let size := wrapInt (size + len r.Host)
  let size :=
    if r.ContentLength ≠ -1 then wrapInt (size + wrapInt r.ContentLength)
    else size
  f64 size

/-! ## Metric state -/

/-- The six metric vectors of the package.  A histogram series is the list of
the values observed so far (newest first), a counter series is its count; a
vector maps the tuple of label values to its series. -/
structure Metrics where
  HttpReqDuration : GoString × GoString → List ℚ
  HttpReqTotal : GoString × GoString × GoString → ℕ
  HttpResponseBytes : GoString × GoString → List ℚ
  HttpReqBytes : GoString × GoString → List ℚ
  DatabaseDuration : GoString × GoString × GoString → List ℚ
  FuncDuration : GoString × GoString → List ℚ

/-- The state after `initMetrics`: no series has a sample. -/
def initMetrics : Metrics where
  HttpReqDuration := fun _ => []
  HttpReqTotal := fun _ => 0
  HttpResponseBytes := fun _ => []
  HttpReqBytes := fun _ => []
  DatabaseDuration := fun _ => []
  FuncDuration := fun _ => []

/-- The label values of a vector with two labels. -/
def labels2 (k : GoString × GoString) : List GoString := [k.1, k.2]

/-- The label values of a vector with three labels. -/
def labels3 (k : GoString × GoString × GoString) : List GoString := [k.1, k.2.1, k.2.2]

/-- The effect of `Observe(v)` on the series with the given labels. -/
def observe {κ : Type} [DecidableEq κ] (vec : κ → List ℚ) (labels : κ) (v : ℚ) :
    κ → List ℚ :=
  fun k => if k = labels then v :: vec k else vec k

/-- The effect of `Inc()` on the series with the given labels. -/
def inc {κ : Type} [DecidableEq κ] (vec : κ → ℕ) (labels : κ) : κ → ℕ :=
  fun k => if k = labels then vec k + 1 else vec k

/-- The call `vec.With(labels).Observe(v)` on a histogram vector: `With`
panics when a label value is not valid UTF-8. -/
def observeWith {κ : Type} [DecidableEq κ] (values : κ → List GoString)
    (vec : κ → List ℚ) (labels : κ) (v : ℚ) : Option (κ → List ℚ) :=
  if (values labels).all utf8ValidString then some (observe vec labels v) else none

/-- The call `vec.With(labels).Inc()` on a counter vector: `With` panics when a
label value is not valid UTF-8. -/
def incWith {κ : Type} [DecidableEq κ] (values : κ → List GoString)
    (vec : κ → ℕ) (labels : κ) : Option (κ → ℕ) :=
  if (values labels).all utf8ValidString then some (inc vec labels) else none

/-- `GinMetricMiddleware` of `stats.go`.  `next` is the rest of the handler
chain run by `c.Next()`, which may change the context and the metric state;
`elapsed` is the reading of `time.Since(start)` taken after it has returned.
The result is `none` when the function panics; the first call that can panic
for a label value is the first recording call, so nothing has been recorded
by then. -/
def GinMetricMiddleware (next : Context → Metrics → Context × Metrics)
    (elapsed : ℤ) (c : Context) (m : Metrics) : Option (Context × Metrics) :=
  let (c, m) := next c m
  let duration := timeSince elapsed
  match parseRequestUrl c with
  | none => none
  | some path =>
    let reqsz := getRequestSize c.Request
    match incWith labels3 m.HttpReqTotal
        (c.Request.Method, path, strconvItoa c.WriterStatus) with
    | none => none
    | some total =>
      match observeWith labels2 m.HttpReqDuration (c.Request.Method, path) duration with
      | none => none
      | some durations =>
        match observeWith labels2 m.HttpResponseBytes (c.Request.Method, path)
            (f64 c.WriterSize) with
        | none => none
        | some responses =>
          match observeWith labels2 m.HttpReqBytes (c.Request.Method, path) reqsz with
          | none => none
          | some requests =>
            some (c, { m with
              HttpReqTotal := total
              HttpReqDuration := durations
              HttpResponseBytes := responses
              HttpReqBytes := requests })

/-! ## Scoped timers -/

/-- A Go `func()` returned by the timer constructors.  When it is invoked it
reads the clock (`elapsed` is that reading of `time.Since(start)`) and acts on
the metric state, or panics. -/
abbrev Finalizer := ℤ → Metrics → Option Metrics

/-- The package variable `nilFunc = func() {}`. -/
def nilFunc : Finalizer := fun _ m => some m

section Timers

variable {α : Type} (render : α → GoString) (toLower : GoString → GoString)

/-- `SetDatabaseDurationStats` of `stats.go`; `toLower` is Go
`strings.ToLower` and `render` the verb `%v`. -/
def SetDatabaseDurationStats (dao filter : GoString) (args : List α) (elapsed : ℤ)
    (m : Metrics) : Option Metrics :=
  let duration := timeSince elapsed
  match observeWith labels3 m.DatabaseDuration
      (toLower dao, toLower filter, formatArgs render args) duration with
  | none => none
  | some durations => some { m with DatabaseDuration := durations }

/-- `SetDatabaseDurationStatsWrap` of `stats.go`. -/
def SetDatabaseDurationStatsWrap (dao filter : GoString) (args : List α) : Finalizer :=
  if dao = [] then nilFunc
  else fun elapsed m => SetDatabaseDurationStats render toLower dao filter args elapsed m

/-- `NewDatabaseDurationStats` of `stats.go`. -/
def NewDatabaseDurationStats (dao filter : GoString) (args : List α) : Finalizer :=
  SetDatabaseDurationStatsWrap render toLower dao filter args

/-- `SetFuncDurationStats` of `stats.go`. -/
def SetFuncDurationStats (fn : GoString) (args : List α) (elapsed : ℤ) (m : Metrics) :
    Option Metrics :=
  let duration := timeSince elapsed
  match observeWith labels2 m.FuncDuration (fn, formatArgs render args) duration with
  | none => none
  | some durations => some { m with FuncDuration := durations }

/-- `SetFuncDurationStatsWrap` of `stats.go`. -/
def SetFuncDurationStatsWrap (fn : GoString) (args : List α) : Finalizer :=
  if fn = [] then nilFunc
  else fun elapsed m => SetFuncDurationStats render fn args elapsed m

/-- `NewFuncDurationStats` of `stats.go`. -/
def NewFuncDurationStats (fn : GoString) (args : List α) : Finalizer :=
  SetFuncDurationStatsWrap render fn args

/-- Invoking a finalizer once for every clock reading of the list, in
order. -/
def invokeAll (fin : Finalizer) (readings : List ℤ) (m : Metrics) : Option Metrics :=
  readings.foldlM (fun m elapsed => fin elapsed m) m

end Timers

/-! ## Specification of the parameter substitution -/

/-- The text `old` occurs in `s` at offset `pre.length`, and nowhere before:
`s` is `pre`, then `old`, then `post`, and every other such decomposition has a
prefix at least as long. -/
def FirstOccurrence (s old pre post : GoString) : Prop :=
  s = pre ++ old ++ post ∧
    ∀ pre' post' : GoString, s = pre' ++ old ++ post' → pre.length ≤ pre'.length

/-- The string `r` is `s` with the first occurrence of `old` replaced by
`new`; when `old` does not occur in `s`, `r` is `s`. -/
def ReplacedFirst (s old new r : GoString) : Prop :=
  ((¬ ∃ pre post : GoString, s = pre ++ old ++ post) ∧ r = s) ∨
    ∃ pre post : GoString, FirstOccurrence s old pre post ∧ r = pre ++ new ++ post

/-- The string `r` results from `path` by taking the bound parameters in order
and replacing, for each, the first occurrence of its value by `":"` followed by
its name. -/
inductive Substituted : GoString → List Param → GoString → Prop
  | done (path : GoString) : Substituted path [] path
  | step (path mid r : GoString) (p : Param) (ps : List Param) :
      ReplacedFirst path p.Value (goString ":" ++ p.Key) mid → Substituted mid ps r →
      Substituted path (p :: ps) r

/-! ## Specification of the decimal rendering -/

/-- The number denoted by a string of decimal digits. -/
def decimalValue (s : GoString) : ℕ :=
  s.foldl (fun a b => 10 * a + (b.toNat - 48)) 0

/-- The string `s` is the decimal numeral of the natural number `n`: one or
more digits, no leading zero except for the numeral `0` itself, denoting
`n`. -/
def IsNumeral (n : ℕ) (s : GoString) : Prop :=
  s ≠ [] ∧ (∀ b ∈ s, b ∈ goString "0123456789") ∧
    (s.head? = some 48 → s = [48]) ∧ decimalValue s = n

/-- The string `s` is the decimal rendering of the integer `n`: its numeral,
preceded by `-` when `n` is negative. -/
def IsDecimal (n : ℤ) (s : GoString) : Prop :=
  (0 ≤ n ∧ IsNumeral n.toNat s) ∨
    (n < 0 ∧ ∃ t : GoString, s = 45 :: t ∧ IsNumeral (-n).toNat t)

/-! ## Specification of the request size -/

/-- The size of the headers: for every header the length of its name and the
lengths of its values. -/
def headerSize (hs : List (GoString × List GoString)) : ℤ :=
  (hs.map (fun h => (len h.1 : ℤ) + (h.2.map (fun v => (len v : ℤ))).sum)).sum

/-- The size of a request without its content: path, method, protocol,
headers and host. -/
def partsSize (r : Request) : ℤ :=
  (match r.URL with
    | some path => (len path : ℤ)
    | none => 0)
    + len r.Method + len r.Proto + headerSize r.Header + len r.Host

/-- The request size in the words of the specification: the content length is
added only if it is non-negative. -/
def specRequestSize (r : Request) : ℤ :=
  partsSize r + (if 0 ≤ r.ContentLength then r.ContentLength else 0)

/-- The request size with the guard of the code: the content length is added
unless it is `-1`. -/
def exactRequestSize (r : Request) : ℤ :=
  partsSize r + (if r.ContentLength = -1 then 0 else r.ContentLength)

/-! ## Example inputs -/

/-- The request of the size example: `GET /a HTTP/1.1`, host `x`, one header
`H: V`, unknown content length. -/
def sizeExampleRequest : Request :=
  ⟨goString "GET", some (goString "/a"), goString "HTTP/1.1",
    [(goString "H", [goString "V"])], goString "x", -1⟩

/-- A request for `/users/42/profile` whose route bound `id = 42`, answered
with status 200 and 10 bytes. -/
def boundExampleContext : Context :=
  ⟨⟨goString "GET", some (goString "/users/42/profile"), goString "HTTP/1.1",
      [(goString "H", [goString "V"])], goString "x", -1⟩,
    [⟨goString "id", goString "42"⟩], 200, 10⟩

/-- A request for `/api/v1/users/123` without bound route parameters, answered
with status 200 and 10 bytes. -/
def unboundExampleContext : Context :=
  ⟨⟨goString "GET", some (goString "/api/v1/users/123"), goString "HTTP/1.1", [],
      goString "x", -1⟩, [], 200, 10⟩

/-- The request `GET /%ff` without bound route parameters: the decoded path is
the byte `/` followed by the byte `0xFF`, which is not valid UTF-8. -/
def invalidPathContext : Context :=
  ⟨⟨goString "GET", some [47, 0xFF], goString "HTTP/1.1", [], goString "x", -1⟩,
    [], 200, 10⟩

/-- A handler chain that changes neither the context nor the metrics. -/
def idleNext (c : Context) (m : Metrics) : Context × Metrics := (c, m)

/-! ## Argument formatting: proofs -/

theorem append_ne_empty_left (a b : GoString) (h : a ≠ []) : a ++ b ≠ [] := by
  intro hab
  exact h (List.append_eq_nil.mp hab).1

/-- Once the accumulator is not empty, the loop of `formatArgs` appends
`"_"` and the next rendering at every step. -/
theorem formatArgs_loop_nonempty {α : Type} (render : α → GoString) (args : List α)
    (ret : GoString) (h : ret ≠ []) :
    args.foldl
        (fun ret val => if ret = [] then render val else ret ++ goString "_" ++ render val)
        ret
      = (args.map render).foldl (fun b s => b ++ goString "_" ++ s) ret := by
  induction args generalizing ret with
  | nil => rfl
  | cons a as ih =>
    have h2 : ret ++ goString "_" ++ render a ≠ [] := by
      rw [List.append_assoc]
      exact append_ne_empty_left _ _ h
    simp only [List.foldl_cons, List.map_cons, if_neg h]
    exact ih _ h2

/-- With an empty accumulator the loop of `formatArgs` skips the leading
elements whose rendering is empty. -/
theorem formatArgs_loop_empty {α : Type} (render : α → GoString) (args : List α) :
    args.foldl
        (fun ret val => if ret = [] then render val else ret ++ goString "_" ++ render val)
        []
      = stringsJoin ((args.dropWhile (fun a => decide (render a = []))).map render)
          (goString "_") := by
  induction args with
  | nil => rfl
  | cons a as ih =>
    by_cases ha : render a = []
    · simp only [List.foldl_cons, if_true, ha, List.dropWhile_cons, decide_True]
      exact ih
    · simp only [List.foldl_cons, if_true, List.dropWhile_cons, ha, decide_False,
        List.map_cons, stringsJoin]
      exact formatArgs_loop_nonempty render as (render a) ha

/-- C10: `formatArgs` returns the `"_"`-join of the renderings of the sequence
that remains after dropping every leading element whose rendering is empty. -/
theorem formatArgs_eq_join_dropWhile {α : Type} (render : α → GoString) (args : List α) :
    formatArgs render args
      = stringsJoin ((args.dropWhile (fun a => decide (render a = []))).map render)
          (goString "_") := by
  unfold formatArgs
  split
  · next h =>
    have : args = [] := List.length_eq_zero.mp h
    subst this
    rfl
  · exact formatArgs_loop_empty render args

/-- When the first rendering is not empty, the result of `formatArgs` is the `"_"`-join of all
renderings. -/
theorem formatArgs_eq_join_of_head {α : Type} (render : α → GoString) (a : α) (as : List α)
    (h : render a ≠ []) :
    formatArgs render (a :: as) = stringsJoin ((a :: as).map render) (goString "_") := by
  rw [formatArgs_eq_join_dropWhile]
  simp [List.dropWhile_cons, h]

/-- C1: at the arguments `["", "a"]` the code returns `"a"`, whereas the
`"_"`-join of the two renderings is `"_a"`. -/
theorem formatArgs_drops_leading_empty :
    formatArgs sprintV [Value.str (goString ""), Value.str (goString "a")] = goString "a" ∧
      stringsJoin ([Value.str (goString ""), Value.str (goString "a")].map sprintV)
        (goString "_") = goString "_a" := by
  decide

/-- The example of `TestFormatArgs`. -/
theorem formatArgs_test :
    formatArgs sprintV
        [Value.str (goString "name"), Value.str (goString "addr"), Value.int 88]
      = goString "name_addr_88" ∧
      formatArgs sprintV [] = goString "" := by
  decide

/-! ## Path normalisation: proofs -/

theorem hasPrefix_iff (s p : GoString) : hasPrefix s p = true ↔ ∃ t, s = p ++ t := by
  induction p generalizing s with
  | nil => simp [hasPrefix]
  | cons d p ih =>
    cases s with
    | nil => simp [hasPrefix]
    | cons c s =>
      simp only [hasPrefix, Bool.and_eq_true, decide_eq_true_eq, ih, List.cons_append,
        List.cons.injEq]
      constructor
      · rintro ⟨rfl, t, rfl⟩
        exact ⟨t, rfl, rfl⟩
      · rintro ⟨t, rfl, rfl⟩
        exact ⟨rfl, t, rfl⟩

/-- What `stringsIndex` returns: `none` when `sub` does not occur in `s`, and
otherwise the offset of the first occurrence. -/
theorem stringsIndex_spec (s sub : GoString) :
    match stringsIndex s sub with
    | none => ¬ ∃ pre post : GoString, s = pre ++ sub ++ post
    | some j =>
      j + sub.length ≤ s.length ∧
        FirstOccurrence s sub (s.take j) (s.drop (j + sub.length)) := by
  induction s with
  | nil =>
    unfold stringsIndex
    by_cases h : sub = []
    · subst h
      simp [FirstOccurrence]
    · simp only [if_neg h]
      rintro ⟨pre, post, hs⟩
      have := congrArg List.length hs
      simp only [List.length_nil, List.length_append] at this
      exact h (List.length_eq_zero.mp (by omega))
  | cons c s ih =>
    unfold stringsIndex
    by_cases hp : hasPrefix (c :: s) sub = true
    · simp only [if_pos hp]
      obtain ⟨t, ht⟩ := (hasPrefix_iff _ _).mp hp
      have hlen := congrArg List.length ht
      simp only [List.length_append] at hlen
      refine ⟨by simp only [Nat.zero_add]; omega, ?_, ?_⟩
      · simp only [List.take_zero, List.nil_append, Nat.zero_add]
        conv_lhs => rw [ht]
        rw [ht, List.drop_left]
      · intro pre' post' _
        simp
    · simp only [if_neg hp]
      have hnp : ¬ ∃ t, c :: s = sub ++ t := fun h => hp ((hasPrefix_iff _ _).mpr h)
      cases hi : stringsIndex s sub with
      | none =>
        rw [hi] at ih
        simp only [Option.map_none']
        rintro ⟨pre, post, hs⟩
        cases pre with
        | nil => exact hnp ⟨post, by simpa using hs⟩
        | cons a pre =>
          simp only [List.cons_append, List.cons.injEq] at hs
          exact ih ⟨pre, post, hs.2⟩
      | some j =>
        rw [hi] at ih
        obtain ⟨hj, hdec, hmin⟩ := ih
        simp only [Option.map_some']
        refine ⟨by simp only [List.length_cons]; omega, ?_, ?_⟩
        · have : j + 1 + sub.length = (j + sub.length) + 1 := by omega
          rw [this, List.take_succ_cons, List.drop_succ_cons, List.cons_append,
            List.cons_append, ← hdec]
        · intro pre' post' hs
          cases pre' with
          | nil => exact absurd ⟨post', by simpa using hs⟩ hnp
          | cons a pre' =>
            simp only [List.cons_append, List.cons.injEq] at hs
            have := hmin pre' post' hs.2
            simp only [List.length_take, List.length_cons] at this ⊢
            omega

/-- Two first occurrences of the same text in the same string coincide. -/
theorem FirstOccurrence.unique {s old pre post pre' post' : GoString}
    (h : FirstOccurrence s old pre post) (h' : FirstOccurrence s old pre' post') :
    pre = pre' ∧ post = post' := by
  have hlen : pre.length = pre'.length :=
    Nat.le_antisymm (h.2 pre' post' h'.1) (h'.2 pre post h.1)
  have heq : pre ++ (old ++ post) = pre' ++ (old ++ post') := by
    rw [← List.append_assoc, ← List.append_assoc, ← h.1, ← h'.1]
  have h1 := List.append_inj heq hlen
  exact ⟨h1.1, List.append_cancel_left h1.2⟩

/-- The result of `stringsReplace1` is the string with the first occurrence
replaced, and it is the only such string. -/
theorem replacedFirst_iff (s old new r : GoString) :
    ReplacedFirst s old new r ↔ r = stringsReplace1 s old new := by
  have hspec := stringsIndex_spec s old
  unfold stringsReplace1
  cases hi : stringsIndex s old with
  | none =>
    rw [hi] at hspec
    simp only
    constructor
    · rintro (⟨_, hr⟩ | ⟨pre, post, hocc, _⟩)
      · exact hr
      · exact absurd ⟨pre, post, hocc.1⟩ hspec
    · intro hr
      exact Or.inl ⟨hspec, hr⟩
  | some j =>
    rw [hi] at hspec
    obtain ⟨hj, hocc⟩ := hspec
    simp only
    constructor
    · rintro (⟨hno, _⟩ | ⟨pre, post, hocc', hr⟩)
      · exact absurd ⟨_, _, hocc.1⟩ hno
      · obtain ⟨h1, h2⟩ := hocc'.unique hocc
        rw [hr, h1, h2]
    · intro hr
      exact Or.inr ⟨_, _, hocc, hr⟩

/-- The loop of `parseRequestUrl` computes the substituted path, and that path
is the only one. -/
theorem substituted_iff (ps : List Param) (path r : GoString) :
    Substituted path ps r ↔
      r = ps.foldl (fun url p => stringsReplace1 url p.Value (goString ":" ++ p.Key))
        path := by
  induction ps generalizing path with
  | nil =>
    constructor
    · intro h
      cases h
      rfl
    · intro h
      rw [h]
      exact Substituted.done _
  | cons p ps ih =>
    constructor
    · intro h
      cases h with
      | step _ mid _ _ _ hrep hrest =>
        rw [(replacedFirst_iff _ _ _ _).mp hrep] at hrest
        simpa using (ih _).mp hrest
    · intro h
      exact Substituted.step path _ r p ps ((replacedFirst_iff _ _ _ _).mpr rfl)
        ((ih _).mpr (by simpa using h))

/-- C2: for a request with path `path`, `parseRequestUrl` returns a string `r`
exactly when `r` results from `path` by replacing, for each bound parameter in
order, the first occurrence of its value by `":"` and its name (nothing changes
for a value that does not occur). -/
theorem parseRequestUrl_substitutes (c : Context) (path r : GoString)
    (hurl : c.Request.URL = some path) :
    parseRequestUrl c = some r ↔ Substituted path c.Params r := by
  unfold parseRequestUrl
  rw [hurl, substituted_iff]
  simp only [Option.some.injEq]
  exact eq_comm

/-- C2, example: the path `/users/42/profile` with `id = 42`. -/
theorem parseRequestUrl_substitutes_witness :
    parseRequestUrl boundExampleContext = some (goString "/users/:id/profile") ∧
      Substituted (goString "/users/42/profile") [⟨goString "id", goString "42"⟩]
        (goString "/users/:id/profile") :=
  ⟨by decide,
    (parseRequestUrl_substitutes boundExampleContext (goString "/users/42/profile")
      (goString "/users/:id/profile") rfl).mp (by decide)⟩

/-- Without bound parameters `parseRequestUrl` returns the path unchanged. -/
theorem parseRequestUrl_no_params (c : Context) (path : GoString)
    (hurl : c.Request.URL = some path) (hps : c.Params = []) :
    parseRequestUrl c = some path := by
  unfold parseRequestUrl
  rw [hurl, hps]
  rfl

/-- The first occurrence is replaced in whichever segment it lies: the value
`1` of `id` is found inside the segment `v1`. -/
theorem parseRequestUrl_earlier_segment :
    parseRequestUrl
        ⟨⟨goString "GET", some (goString "/v1/users/1"), goString "HTTP/1.1", [],
            goString "x", -1⟩, [⟨goString "id", goString "1"⟩], 200, 0⟩
      = some (goString "/v:id/users/1") := by
  decide

/-- A path of fewer than four bytes is returned unchanged. -/
theorem extractRequestPath_short (path : GoString) (h : len path < 4) :
    extractRequestPath path = some path := by
  unfold extractRequestPath
  simp only [ge_iff_le]
  rw [if_neg (by omega)]

/-- A path of at least four bytes with at least three segments is cut down to
its first three segments. -/
theorem extractRequestPath_long (path : GoString) (h : 4 ≤ len path)
    (h3 : 3 ≤ (stringsSplit 47 path).length) :
    extractRequestPath path
      = some (stringsJoin ((stringsSplit 47 path).take 3) (goString "/")) := by
  unfold extractRequestPath
  simp only [ge_iff_le]
  rw [if_pos h, if_pos h3]

/-- The number of segments is one more than the number of separators. -/
theorem length_stringsSplit (sep : UInt8) (s : GoString) :
    (stringsSplit sep s).length = s.count sep + 1 := by
  induction s with
  | nil => rfl
  | cons c s ih =>
    unfold stringsSplit
    by_cases h : c = sep
    · subst h
      simp [ih]
    · rw [if_neg h, List.count_cons_of_ne (fun h2 => h h2.symm)]
      cases hs : stringsSplit sep s with
      | nil => rw [hs] at ih; simp at ih
      | cons seg rest => rw [hs] at ih; simpa using ih

/-- The inputs on which `extractRequestPath` panics: the paths of at least four
bytes with fewer than two `/`. -/
theorem extractRequestPath_eq_none_iff (path : GoString) :
    extractRequestPath path = none ↔ 4 ≤ len path ∧ path.count 47 < 2 := by
  unfold extractRequestPath
  simp only [ge_iff_le, length_stringsSplit]
  by_cases h : 4 ≤ len path
  · by_cases h3 : 3 ≤ path.count 47 + 1
    · rw [if_pos h, if_pos h3]
      simp only [false_iff, not_and, not_lt, reduceCtorEq]
      intro _
      omega
    · rw [if_pos h, if_neg h3]
      simp only [true_iff]
      exact ⟨h, by omega⟩
  · rw [if_neg h]
    simp only [false_iff, not_and, reduceCtorEq]
    intro h4
    exact absurd h4 h

/-- C3: the path `abcd` has four bytes and one segment, and
`extractRequestPath` panics on it instead of returning its segments joined;
the two examples of the specification are computed as stated. -/
theorem extractRequestPath_abcd :
    len (goString "abcd") = 4 ∧ stringsSplit 47 (goString "abcd") = [goString "abcd"] ∧
      extractRequestPath (goString "abcd") = none ∧
      extractRequestPath (goString "/api/v1/users/123") = some (goString "/api/v1") ∧
      extractRequestPath (goString "/ok") = some (goString "/ok") := by
  decide

/-- C4: `extractRequestPath` is not total: on `/abcd` (five bytes, two
segments) and on `abcd` the slice `itemList[0:3]` is out of range. -/
theorem extractRequestPath_panics :
    stringsSplit 47 (goString "/abcd") = [goString "", goString "abcd"] ∧
      extractRequestPath (goString "/abcd") = none ∧
      ¬ ∀ path : GoString, ∃ r : GoString, extractRequestPath path = some r := by
  refine ⟨by decide, by decide, ?_⟩
  intro h
  obtain ⟨r, hr⟩ := h (goString "/abcd")
  have hnone : extractRequestPath (goString "/abcd") = none := by decide
  rw [hnone] at hr
  exact Option.noConfusion hr

/-! ## Decimal rendering and label validity: proofs -/

/-- The ten digit bytes: each is one of `0123456789`, denotes its digit, is an
ASCII byte, and only the digit 0 has the byte `0`. -/
theorem digitByte_facts :
    ∀ d : Fin 10, digitByte d.val ∈ goString "0123456789" ∧
      (digitByte d.val).toNat - 48 = d.val ∧ digitByte d.val < 0x80 ∧
      (digitByte d.val = 48 → d.val = 0) := by
  decide

theorem decimalValue_append (a : GoString) (b : UInt8) :
    decimalValue (a ++ [b]) = 10 * decimalValue a + (b.toNat - 48) := by
  unfold decimalValue
  rw [List.foldl_append]
  rfl

/-- With enough fuel `decimalDigits` produces the decimal numeral of `n`, made
of ASCII bytes. -/
theorem decimalDigits_spec (fuel n : ℕ) (h : n < fuel) :
    decimalDigits fuel n ≠ [] ∧
      (∀ b ∈ decimalDigits fuel n, b ∈ goString "0123456789") ∧
      (∀ b ∈ decimalDigits fuel n, b < 0x80) ∧
      ((decimalDigits fuel n).head? = some 48 → n = 0) ∧
      decimalValue (decimalDigits fuel n) = n := by
  induction fuel generalizing n with
  | zero => omega
  | succ fuel ih =>
    unfold decimalDigits
    by_cases hn : n < 10
    · rw [if_pos hn]
      obtain ⟨f1, f2, f3, f4⟩ := digitByte_facts ⟨n, hn⟩
      simp only at f1 f2 f3 f4
      refine ⟨by simp, ?_, ?_, ?_, ?_⟩
      · intro b hb
        rw [List.mem_singleton] at hb
        rw [hb]
        exact f1
      · intro b hb
        rw [List.mem_singleton] at hb
        rw [hb]
        exact f3
      · intro hh
        simp only [List.head?_cons, Option.some.injEq] at hh
        exact f4 hh
      · have := decimalValue_append [] (digitByte n)
        simp only [List.nil_append] at this
        rw [this, f2]
        simp [decimalValue]
    · rw [if_neg hn]
      have hlt : n / 10 < fuel := by omega
      obtain ⟨i1, i2, i3, i4, i5⟩ := ih (n / 10) hlt
      obtain ⟨f1, f2, f3, _⟩ := digitByte_facts ⟨n % 10, Nat.mod_lt n (by norm_num)⟩
      simp only at f1 f2 f3
      refine ⟨by simp, ?_, ?_, ?_, ?_⟩
      · intro b hb
        rcases List.mem_append.mp hb with hb | hb
        · exact i2 b hb
        · rw [List.mem_singleton] at hb
          rw [hb]
          exact f1
      · intro b hb
        rcases List.mem_append.mp hb with hb | hb
        · exact i3 b hb
        · rw [List.mem_singleton] at hb
          rw [hb]
          exact f3
      · intro hh
        cases hd : decimalDigits fuel (n / 10) with
        | nil => exact absurd hd i1
        | cons x xs =>
          rw [hd] at hh i4
          simp only [List.cons_append, List.head?_cons] at hh i4
          have := i4 hh
          omega
      · rw [decimalValue_append, i5, f2]
        omega

/-- The digits produced for a natural number form its decimal numeral. -/
theorem isNumeral_decimalDigits (n : ℕ) : IsNumeral n (decimalDigits (n + 1) n) := by
  obtain ⟨h1, h2, _, h4, h5⟩ := decimalDigits_spec (n + 1) n (by omega)
  refine ⟨h1, h2, ?_, h5⟩
  intro hh
  have h0 := h4 hh
  subst h0
  decide

/-- `strconvItoa` returns the decimal rendering of its argument. -/
theorem strconvItoa_decimal (n : ℤ) : IsDecimal n (strconvItoa n) := by
  unfold strconvItoa
  cases n with
  | ofNat m =>
    left
    exact ⟨Int.ofNat_nonneg m, by simpa using isNumeral_decimalDigits m⟩
  | negSucc m =>
    right
    refine ⟨Int.negSucc_lt_zero m, _, rfl, ?_⟩
    have hval : (-Int.negSucc m).toNat = m + 1 := by
      rw [Int.neg_negSucc]
      rfl
    rw [hval]
    exact isNumeral_decimalDigits (m + 1)

/-- The fuel of `utf8ValidLoop` never decides the result once it is at least the
length of the string: every step consumes at least one byte. -/
theorem utf8ValidLoop_fuel (fuel1 fuel2 : ℕ) (s : GoString) (h1 : s.length ≤ fuel1)
    (h2 : s.length ≤ fuel2) : utf8ValidLoop fuel1 s = utf8ValidLoop fuel2 s := by
  induction fuel1 generalizing fuel2 s with
  | zero =>
    have : s = [] := List.length_eq_zero.mp (by omega)
    subst this
    cases fuel2 <;> rfl
  | succ f1 ih =>
    cases s with
    | nil => cases fuel2 <;> rfl
    | cons b s =>
      cases fuel2 with
      | zero => simp at h2
      | succ f2 =>
        unfold utf8ValidLoop
        cases utf8SeqLen (b :: s) with
        | zero => rfl
        | succ k =>
          simp only
          have hl : (s.drop k).length ≤ s.length := by
            rw [List.length_drop]
            omega
          simp only [List.length_cons] at h1 h2
          exact ih f2 (s.drop k) (by omega) (by omega)

theorem utf8ValidLoop_of_ascii (s : GoString) (fuel : ℕ) (hf : s.length ≤ fuel)
    (h : ∀ b ∈ s, b < 0x80) : utf8ValidLoop fuel s = true := by
  induction s generalizing fuel with
  | nil => cases fuel <;> rfl
  | cons b s ih =>
    cases fuel with
    | zero => simp at hf
    | succ fuel =>
      have hb : b < 0x80 := h b (List.mem_cons_self b s)
      have hlen : utf8SeqLen (b :: s) = 1 := by
        unfold utf8SeqLen
        simp only
        rw [if_pos hb]
      unfold utf8ValidLoop
      rw [hlen]
      simp only [List.drop_zero]
      exact ih fuel (by simpa using hf) (fun x hx => h x (List.mem_cons_of_mem b hx))

/-- A string of ASCII bytes is valid UTF-8. -/
theorem utf8ValidString_of_ascii (s : GoString) (h : ∀ b ∈ s, b < 0x80) :
    utf8ValidString s = true :=
  utf8ValidLoop_of_ascii s s.length (le_refl _) h

/-- Examples of `utf8ValidString`: text in one to four byte sequences is
valid; a stray `0xFF`, an overlong form, a surrogate and a truncated sequence
are not. -/
theorem utf8ValidString_examples :
    utf8ValidString (goString "/users/:id/profile") = true ∧
      utf8ValidString (goString "héllo € 𝄞") = true ∧
      utf8ValidString [47, 0xFF] = false ∧ utf8ValidString [0xC0, 0x80] = false ∧
      utf8ValidString [0xED, 0xA0, 0x80] = false ∧ utf8ValidString [0xE2, 0x82] = false := by
  decide

/-- The status label is always valid UTF-8. -/
theorem utf8ValidString_strconvItoa (n : ℤ) : utf8ValidString (strconvItoa n) = true := by
  apply utf8ValidString_of_ascii
  unfold strconvItoa
  cases n with
  | ofNat m =>
    exact (decimalDigits_spec (m + 1) m (by omega)).2.2.1
  | negSucc m =>
    intro b hb
    rcases List.mem_cons.mp hb with hb | hb
    · rw [hb]
      decide
    · exact (decimalDigits_spec (m + 2) (m + 1) (by omega)).2.2.1 b hb

/-- Examples of `strconvItoa`. -/
theorem strconvItoa_examples :
    strconvItoa 200 = goString "200" ∧ strconvItoa 0 = goString "0" ∧
      strconvItoa (-17) = goString "-17" ∧ strconvItoa 1234567 = goString "1234567" := by
  decide

/-! ## Rounding: proofs -/

theorem roundHalfEven_intCast (n : ℤ) : roundHalfEven (n : ℚ) = n := by
  unfold roundHalfEven
  simp

theorem floor_le_roundHalfEven (x : ℚ) : ⌊x⌋ ≤ roundHalfEven x := by
  unfold roundHalfEven
  simp only
  split_ifs <;> omega

theorem roundHalfEven_le_floor_succ (x : ℚ) : roundHalfEven x ≤ ⌊x⌋ + 1 := by
  unfold roundHalfEven
  simp only
  split_ifs <;> omega

/-- Rounding to the nearest integer is monotone. -/
theorem roundHalfEven_mono {x y : ℚ} (h : x ≤ y) : roundHalfEven x ≤ roundHalfEven y := by
  have hf : ⌊x⌋ ≤ ⌊y⌋ := Int.floor_mono h
  rcases hf.lt_or_eq with hlt | heq
  · calc roundHalfEven x ≤ ⌊x⌋ + 1 := roundHalfEven_le_floor_succ x
      _ ≤ ⌊y⌋ := hlt
      _ ≤ roundHalfEven y := floor_le_roundHalfEven y
  · unfold roundHalfEven
    simp only
    rw [heq]
    have hxy : x - (⌊y⌋ : ℚ) ≤ y - (⌊y⌋ : ℚ) := by linarith
    split_ifs <;> first | omega | (exfalso; linarith)

theorem two_zpow_pos (e : ℤ) : (0 : ℚ) < 2 ^ e := zpow_pos (by norm_num) e

/-- A positive rational lies between the powers of two given by its
logarithm. -/
theorem log_two_bounds {q : ℚ} (hq : 0 < q) :
    (2 : ℚ) ^ Int.log 2 q ≤ q ∧ q < 2 ^ (Int.log 2 q + 1) := by
  have h1 := Int.zpow_log_le_self (b := 2) (r := q) (by norm_num) hq
  have h2 := Int.lt_zpow_succ_log_self (b := 2) (by norm_num) q
  simp only [Nat.cast_ofNat] at h1 h2
  exact ⟨h1, h2⟩

/-- The logarithm is determined by the two powers of two around `q`. -/
theorem log_two_eq {q : ℚ} {L : ℤ} (h1 : (2 : ℚ) ^ L ≤ q) (h2 : q < 2 ^ (L + 1)) :
    Int.log 2 q = L := by
  have hq : 0 < q := lt_of_lt_of_le (two_zpow_pos L) h1
  have a1 := (Int.zpow_le_iff_le_log (b := 2) (by norm_num) hq (x := L)).mp
    (by simpa using h1)
  have a2 := (Int.lt_zpow_iff_log_lt (b := 2) (by norm_num) hq (x := L + 1)).mp
    (by simpa using h2)
  omega

/-- The scaled significand of a positive rational lies in `[2^52, 2^53)`. -/
theorem scaled_bounds {q : ℚ} (hq : 0 < q) :
    ((2 ^ 52 : ℤ) : ℚ) ≤ q / 2 ^ (Int.log 2 q - 52) ∧
      q / 2 ^ (Int.log 2 q - 52) < ((2 ^ 53 : ℤ) : ℚ) := by
  obtain ⟨h1, h2⟩ := log_two_bounds hq
  have hpos := two_zpow_pos (Int.log 2 q - 52)
  have e1 : (2 : ℚ) ^ Int.log 2 q = 2 ^ (52 : ℤ) * 2 ^ (Int.log 2 q - 52) := by
    rw [← zpow_add₀ (by norm_num : (2 : ℚ) ≠ 0)]
    congr 1
    ring
  have e2 : (2 : ℚ) ^ (Int.log 2 q + 1) = 2 ^ (53 : ℤ) * 2 ^ (Int.log 2 q - 52) := by
    rw [← zpow_add₀ (by norm_num : (2 : ℚ) ≠ 0)]
    congr 1
    ring
  have n1 : ((2 ^ 52 : ℤ) : ℚ) = 2 ^ (52 : ℤ) := by norm_num
  have n2 : ((2 ^ 53 : ℤ) : ℚ) = 2 ^ (53 : ℤ) := by norm_num
  constructor
  · rw [le_div_iff₀ hpos, n1, ← e1]
    exact h1
  · rw [div_lt_iff₀ hpos, n2, ← e2]
    exact h2

/-- The rounded value stays within the binade of `q`. -/
theorem roundPos_bounds {q : ℚ} (hq : 0 < q) :
    (2 : ℚ) ^ Int.log 2 q ≤ roundPos q ∧ roundPos q ≤ 2 ^ (Int.log 2 q + 1) := by
  obtain ⟨h1, h2⟩ := scaled_bounds hq
  have hpos := two_zpow_pos (Int.log 2 q - 52)
  have r1 : (2 ^ 52 : ℤ) ≤ roundHalfEven (q / 2 ^ (Int.log 2 q - 52)) := by
    have := roundHalfEven_mono h1
    rwa [roundHalfEven_intCast] at this
  have r2 : roundHalfEven (q / 2 ^ (Int.log 2 q - 52)) ≤ (2 ^ 53 : ℤ) := by
    have := roundHalfEven_mono h2.le
    rwa [roundHalfEven_intCast] at this
  have e1 : (2 : ℚ) ^ Int.log 2 q = 2 ^ (52 : ℤ) * 2 ^ (Int.log 2 q - 52) := by
    rw [← zpow_add₀ (by norm_num : (2 : ℚ) ≠ 0)]
    congr 1
    ring
  have e2 : (2 : ℚ) ^ (Int.log 2 q + 1) = 2 ^ (53 : ℤ) * 2 ^ (Int.log 2 q - 52) := by
    rw [← zpow_add₀ (by norm_num : (2 : ℚ) ≠ 0)]
    congr 1
    ring
  have c1 : ((2 ^ 52 : ℤ) : ℚ) ≤ (roundHalfEven (q / 2 ^ (Int.log 2 q - 52)) : ℚ) :=
    Int.cast_le.mpr r1
  have c2 : (roundHalfEven (q / 2 ^ (Int.log 2 q - 52)) : ℚ) ≤ ((2 ^ 53 : ℤ) : ℚ) :=
    Int.cast_le.mpr r2
  have n1 : ((2 ^ 52 : ℤ) : ℚ) = 2 ^ (52 : ℤ) := by norm_num
  have n2 : ((2 ^ 53 : ℤ) : ℚ) = 2 ^ (53 : ℤ) := by norm_num
  rw [n1] at c1
  rw [n2] at c2
  unfold roundPos
  simp only
  constructor
  · rw [e1]
    exact mul_le_mul_of_nonneg_right c1 hpos.le
  · rw [e2]
    exact mul_le_mul_of_nonneg_right c2 hpos.le

theorem roundPos_pos {q : ℚ} (hq : 0 < q) : 0 < roundPos q :=
  lt_of_lt_of_le (two_zpow_pos _) (roundPos_bounds hq).1

/-- Rounding of positive rationals is monotone. -/
theorem roundPos_mono {p q : ℚ} (hp : 0 < p) (h : p ≤ q) : roundPos p ≤ roundPos q := by
  have hq : 0 < q := lt_of_lt_of_le hp h
  have hlog : Int.log 2 p ≤ Int.log 2 q := Int.log_mono_right hp h
  rcases hlog.lt_or_eq with hlt | heq
  · calc roundPos p ≤ 2 ^ (Int.log 2 p + 1) := (roundPos_bounds hp).2
      _ ≤ 2 ^ Int.log 2 q := zpow_le_zpow_right₀ (by norm_num) hlt
      _ ≤ roundPos q := (roundPos_bounds hq).1
  · unfold roundPos
    simp only
    rw [heq]
    have hpos := two_zpow_pos (Int.log 2 q - 52)
    apply mul_le_mul_of_nonneg_right _ hpos.le
    exact Int.cast_le.mpr (roundHalfEven_mono (div_le_div_of_nonneg_right h hpos.le))

/-- Rounding to `float64` is monotone. -/
theorem f64_mono {p q : ℚ} (h : p ≤ q) : f64 p ≤ f64 q := by
  unfold f64
  rcases lt_trichotomy 0 p with hp | hp | hp
  · have hq : 0 < q := lt_of_lt_of_le hp h
    rw [if_pos hp, if_pos hq]
    exact roundPos_mono hp h
  · subst hp
    rw [if_neg (lt_irrefl _), if_neg (lt_irrefl _)]
    rcases h.lt_or_eq with hq | hq
    · rw [if_pos hq]
      exact (roundPos_pos hq).le
    · subst hq
      simp
  · rw [if_neg (not_lt.mpr hp.le), if_pos hp]
    have hnp : 0 < roundPos (-p) := roundPos_pos (by linarith)
    rcases lt_trichotomy 0 q with hq | hq | hq
    · rw [if_pos hq]
      have := roundPos_pos hq
      linarith
    · subst hq
      simp only [lt_irrefl, if_false]
      linarith
    · rw [if_neg (not_lt.mpr hq.le), if_pos hq]
      have := roundPos_mono (p := -q) (q := -p) (by linarith) (by linarith)
      linarith

/-- A number with at most 53 significant bits is not changed by rounding. -/
theorem roundPos_dyadic (m : ℕ) (k : ℤ) (hm : 0 < m) (hlt : m < 2 ^ 53) :
    roundPos ((m : ℚ) * 2 ^ k) = (m : ℚ) * 2 ^ k := by
  have h2ne : (2 : ℚ) ≠ 0 := by norm_num
  have ha1 : 2 ^ Nat.log 2 m ≤ m := Nat.pow_log_le_self 2 hm.ne'
  have ha2 : m < 2 ^ (Nat.log 2 m + 1) := Nat.lt_pow_succ_log_self (by norm_num) m
  have ha : Nat.log 2 m ≤ 52 := by
    by_contra hc
    have : 2 ^ 53 ≤ 2 ^ Nat.log 2 m := Nat.pow_le_pow_right (by norm_num) (by omega)
    omega
  generalize Nat.log 2 m = a at ha1 ha2 ha
  have hk := two_zpow_pos k
  have c1 : ((2 ^ a : ℕ) : ℚ) ≤ (m : ℚ) := Nat.cast_le.mpr ha1
  have c2 : (m : ℚ) < ((2 ^ (a + 1) : ℕ) : ℚ) := Nat.cast_lt.mpr ha2
  have hlog : Int.log 2 ((m : ℚ) * 2 ^ k) = (a : ℤ) + k := by
    apply log_two_eq
    · rw [zpow_add₀ h2ne, zpow_natCast]
      exact mul_le_mul_of_nonneg_right (by simpa using c1) hk.le
    · have : (a : ℤ) + k + 1 = ((a + 1 : ℕ) : ℤ) + k := by push_cast; ring
      rw [this, zpow_add₀ h2ne, zpow_natCast]
      exact mul_lt_mul_of_pos_right (by simpa using c2) hk
  have hsplit : (2 : ℚ) ^ k = 2 ^ (52 - a) * 2 ^ ((a : ℤ) + k - 52) := by
    rw [← zpow_natCast, ← zpow_add₀ h2ne]
    congr 1
    omega
  have hscaled : (m : ℚ) * 2 ^ k / 2 ^ ((a : ℤ) + k - 52) = ((m * 2 ^ (52 - a) : ℕ) : ℤ) := by
    rw [hsplit, ← mul_assoc, mul_div_assoc, div_self (two_zpow_pos _).ne', mul_one]
    push_cast
    rfl
  unfold roundPos
  simp only
  rw [hlog, hscaled, roundHalfEven_intCast]
  conv_rhs => rw [hsplit]
  push_cast
  ring

/-- Rounding to `float64` does not change a positive number with at most 53
significant bits. -/
theorem f64_dyadic (m : ℕ) (k : ℤ) (hm : 0 < m) (hlt : m < 2 ^ 53) :
    f64 ((m : ℚ) * 2 ^ k) = (m : ℚ) * 2 ^ k := by
  have hpos : (0 : ℚ) < (m : ℚ) * 2 ^ k :=
    mul_pos (Nat.cast_pos.mpr hm) (two_zpow_pos k)
  unfold f64
  rw [if_pos hpos]
  exact roundPos_dyadic m k hm hlt

theorem f64_neg (q : ℚ) : f64 (-q) = -f64 q := by
  unfold f64
  rcases lt_trichotomy 0 q with hq | hq | hq
  · rw [if_neg (by linarith), if_pos (by linarith), if_pos hq, neg_neg]
  · subst hq
    simp
  · rw [if_pos (by linarith), if_neg (by linarith), if_pos hq, neg_neg]

theorem f64_natCast (m : ℕ) (h : m ≤ 2 ^ 53) : f64 (m : ℚ) = m := by
  rcases Nat.eq_zero_or_pos m with h0 | hpos
  · subst h0
    simp [f64]
  · rcases h.lt_or_eq with hlt | heq
    · have := f64_dyadic m 0 hpos hlt
      simpa using this
    · subst heq
      have := f64_dyadic 1 53 (by norm_num) (by norm_num)
      norm_num at this ⊢
      exact this

/-- The conversion of an integer of magnitude at most `2 ^ 53` to `float64` is
exact. -/
theorem f64_intCast (n : ℤ) (h1 : -2 ^ 53 ≤ n) (h2 : n ≤ 2 ^ 53) : f64 (n : ℚ) = n := by
  rcases Int.le_total 0 n with hn | hn
  · obtain ⟨m, rfl⟩ := Int.eq_ofNat_of_zero_le hn
    have hm : m ≤ 2 ^ 53 := by exact_mod_cast h2
    simpa using f64_natCast m hm
  · obtain ⟨m, hm⟩ := Int.eq_ofNat_of_zero_le (by omega : 0 ≤ -n)
    have hm2 : m ≤ 2 ^ 53 := by
      have : (m : ℤ) ≤ 2 ^ 53 := by omega
      exact_mod_cast this
    have hn2 : n = -(m : ℤ) := by omega
    rw [hn2]
    push_cast
    rw [f64_neg, f64_natCast m hm2]

/-! ## Duration clamp: proofs -/

/-- A rational strictly within one half of an integer rounds to it. -/
theorem roundHalfEven_eq_of_near (x : ℚ) (n : ℤ) (h1 : (n : ℚ) - 1 / 2 < x)
    (h2 : x < (n : ℚ) + 1 / 2) : roundHalfEven x = n := by
  unfold roundHalfEven
  simp only
  rcases le_or_lt (n : ℚ) x with hx | hx
  · have hf : ⌊x⌋ = n := Int.floor_eq_iff.mpr ⟨hx, by linarith⟩
    rw [hf, if_pos (by linarith)]
  · have hf : ⌊x⌋ = n - 1 := Int.floor_eq_iff.mpr ⟨by push_cast; linarith, by push_cast; linarith⟩
    rw [hf]
    push_cast
    rw [if_neg (by linarith), if_pos (by linarith)]
    ring

/-- The constant `0.001` as a `float64`: `0x3F50624DD2F1A9FC`, that is
`4611686018427388 / 2 ^ 62`. -/
theorem f64_millisecond : f64 (1 / 1000) = 4611686018427388 * 2 ^ (-62 : ℤ) := by
  have hlog : Int.log 2 ((1 : ℚ) / 1000) = -10 := log_two_eq (by norm_num) (by norm_num)
  have hr : roundHalfEven ((1 : ℚ) / 1000 / 2 ^ (-10 - 52 : ℤ)) = 4611686018427388 :=
    roundHalfEven_eq_of_near _ _ (by norm_num) (by norm_num)
  unfold f64 roundPos
  rw [if_pos (by norm_num)]
  simp only
  rw [hlog, hr]
  norm_num

/-- The `float64` just below one millisecond: any duration of less than
`10 ^ 6` nanoseconds, divided by `10 ^ 9`, rounds below the constant
`0.001`. -/
theorem f64_below_millisecond : f64 (999999 / 10 ^ 9) < f64 (1 / 1000) := by
  have d1 := f64_dyadic 1073741 (-30) (by norm_num) (by norm_num)
  have d2 := f64_dyadic 2147483 (-31) (by norm_num) (by norm_num)
  have s1 : f64 (999999 / 10 ^ 9) ≤ f64 ((1073741 : ℕ) * 2 ^ (-30 : ℤ)) :=
    f64_mono (by norm_num)
  have s2 : f64 ((2147483 : ℕ) * 2 ^ (-31 : ℤ)) ≤ f64 (1 / 1000) :=
    f64_mono (by norm_num)
  rw [d1] at s1
  rw [d2] at s2
  have s3 : ((1073741 : ℕ) : ℚ) * 2 ^ (-30 : ℤ) < ((2147483 : ℕ) : ℚ) * 2 ^ (-31 : ℤ) := by
    norm_num
  linarith

/-- C7: `timeSince` returns the `float64` constant `0.001` when the elapsed
duration is below one millisecond (`10 ^ 6` nanoseconds, also for zero and
negative durations), returns the `float64` quotient of the elapsed nanoseconds
by `10 ^ 9` unchanged when it is at least one millisecond, and so never returns
less than `0.001`. -/
theorem timeSince_clamp (elapsed : ℤ) :
    timeSince elapsed
        = (if elapsed < 10 ^ 6 then f64 (1 / 1000)
            else f64 (f64 elapsed / f64 (10 ^ 9 : ℤ))) ∧
      f64 (1 / 1000) ≤ timeSince elapsed := by
  have hsec : f64 ((10 ^ 9 : ℤ) : ℚ) = 10 ^ 9 := by
    have := f64_intCast (10 ^ 9) (by norm_num) (by norm_num)
    simpa using this
  have hclamp : f64 (1 / 1000) ≤ timeSince elapsed := by
    unfold timeSince
    simp only
    split_ifs with h
    · exact le_refl _
    · exact not_lt.mp h
  refine ⟨?_, hclamp⟩
  unfold timeSince
  simp only
  by_cases h : elapsed < 10 ^ 6
  · rw [if_pos h]
    have h1 : f64 (elapsed : ℚ) ≤ 999999 := by
      have hm : f64 (elapsed : ℚ) ≤ f64 ((999999 : ℤ) : ℚ) :=
        f64_mono (Int.cast_le.mpr (by omega))
      have he := f64_intCast 999999 (by norm_num) (by norm_num)
      rw [he] at hm
      simpa using hm
    have h2 : f64 (f64 (elapsed : ℚ) / f64 ((10 ^ 9 : ℤ) : ℚ)) ≤ f64 (999999 / 10 ^ 9) := by
      apply f64_mono
      rw [hsec]
      exact div_le_div_of_nonneg_right h1 (by norm_num)
    rw [if_pos (lt_of_le_of_lt h2 f64_below_millisecond)]
  · rw [if_neg h]
    have h1 : (10 ^ 6 : ℚ) ≤ f64 (elapsed : ℚ) := by
      have hm : f64 (((10 ^ 6 : ℤ)) : ℚ) ≤ f64 (elapsed : ℚ) :=
        f64_mono (Int.cast_le.mpr (by omega))
      have he := f64_intCast (10 ^ 6) (by norm_num) (by norm_num)
      rw [he] at hm
      simpa using hm
    have h2 : f64 (1 / 1000) ≤ f64 (f64 (elapsed : ℚ) / f64 ((10 ^ 9 : ℤ) : ℚ)) := by
      apply f64_mono
      rw [hsec, le_div_iff₀ (by norm_num)]
      linarith
    rw [if_neg (not_lt.mpr h2)]

/-! ## Request size: proofs -/

theorem wrapInt_add_left (a b : ℤ) : wrapInt (wrapInt a + b) = wrapInt (a + b) := by
  unfold wrapInt
  omega

theorem wrapInt_add_right (a b : ℤ) : wrapInt (a + wrapInt b) = wrapInt (a + b) := by
  unfold wrapInt
  omega

theorem wrapInt_of_range (a : ℤ) (h1 : -2 ^ 63 ≤ a) (h2 : a < 2 ^ 63) : wrapInt a = a := by
  unfold wrapInt
  omega

theorem values_loop (vs : List GoString) (a : ℤ) :
    vs.foldl (fun size value => wrapInt (size + len value)) (wrapInt a)
      = wrapInt (a + (vs.map (fun v => (len v : ℤ))).sum) := by
  induction vs generalizing a with
  | nil => simp
  | cons v vs ih =>
    simp only [List.foldl_cons, List.map_cons, List.sum_cons]
    rw [wrapInt_add_left, ih, add_assoc]

theorem header_loop (hs : List (GoString × List GoString)) (a : ℤ) :
    hs.foldl
        (fun size h => h.2.foldl (fun size value => wrapInt (size + len value))
          (wrapInt (size + len h.1)))
        (wrapInt a)
      = wrapInt (a + headerSize hs) := by
  induction hs generalizing a with
  | nil => simp [headerSize]
  | cons h hs ih =>
    simp only [List.foldl_cons, headerSize, List.map_cons, List.sum_cons]
    rw [wrapInt_add_left, values_loop, ih]
    congr 1
    simp only [headerSize]
    ring

/-- The value computed by `getRequestSize`: the exact sum, reduced to 64 bits
and converted to `float64`. -/
theorem getRequestSize_eq_wrap (r : Request) :
    getRequestSize r = f64 (wrapInt (exactRequestSize r)) := by
  unfold getRequestSize exactRequestSize partsSize
  simp only
  rw [wrapInt_add_left, header_loop, wrapInt_add_left]
  by_cases h : r.ContentLength = -1
  · simp only [h, ne_eq, not_true_eq_false, if_false, if_true, add_zero]
    congr 2
    unfold wrapInt
    omega
  · simp only [ne_eq, h, not_false_eq_true, if_true, if_false]
    rw [wrapInt_add_right]
    congr 2
    unfold wrapInt
    omega

theorem headerSize_nonneg (hs : List (GoString × List GoString)) : 0 ≤ headerSize hs := by
  unfold headerSize
  apply List.sum_nonneg
  intro x hx
  obtain ⟨h, _, rfl⟩ := List.mem_map.mp hx
  have : 0 ≤ (h.2.map (fun v => (len v : ℤ))).sum := by
    apply List.sum_nonneg
    intro y hy
    obtain ⟨v, _, rfl⟩ := List.mem_map.mp hy
    exact Int.natCast_nonneg _
  have := Int.natCast_nonneg (len h.1)
  omega

theorem partsSize_nonneg (r : Request) : 0 ≤ partsSize r := by
  unfold partsSize
  have h1 := headerSize_nonneg r.Header
  have h2 := Int.natCast_nonneg (len r.Method)
  have h3 := Int.natCast_nonneg (len r.Proto)
  have h4 := Int.natCast_nonneg (len r.Host)
  have h5 : (0 : ℤ) ≤ (match r.URL with
    | some path => (len path : ℤ)
    | none => 0) := by
    cases r.URL with
    | none => exact le_refl _
    | some p => exact Int.natCast_nonneg _
  omega

/-- C5, amended: as long as the sum has magnitude at most `2 ^ 53`,
`getRequestSize` returns the lengths of path, method, protocol, headers and
host plus the content length, where the content length is left out only when
it is `-1`; for a content length of at least `-1` this is the sum of the
specification and is not negative. -/
theorem getRequestSize_exact (r : Request)
    (hlo : -2 ^ 53 ≤ exactRequestSize r) (hhi : exactRequestSize r ≤ 2 ^ 53) :
    getRequestSize r = (exactRequestSize r : ℚ) ∧
      (-1 ≤ r.ContentLength →
        getRequestSize r = (specRequestSize r : ℚ) ∧ 0 ≤ getRequestSize r) := by
  have hval : getRequestSize r = (exactRequestSize r : ℚ) := by
    rw [getRequestSize_eq_wrap, wrapInt_of_range _ (by omega) (by omega),
      f64_intCast _ hlo hhi]
  refine ⟨hval, fun hcl => ?_⟩
  have hspec : exactRequestSize r = specRequestSize r := by
    unfold exactRequestSize specRequestSize
    by_cases h : r.ContentLength = -1
    · rw [if_pos h, if_neg (by omega)]
    · rw [if_neg h, if_pos (by omega)]
  have hnn : 0 ≤ specRequestSize r := by
    unfold specRequestSize
    have := partsSize_nonneg r
    split_ifs <;> omega
  rw [hval, hspec]
  exact ⟨rfl, Int.cast_nonneg.mpr hnn⟩

/-- C5, example: the request of the specification has size 16. -/
theorem getRequestSize_exact_witness :
    getRequestSize sizeExampleRequest = 16 ∧ 0 ≤ getRequestSize sizeExampleRequest := by
  have hv : exactRequestSize sizeExampleRequest = 16 := by decide
  have h := getRequestSize_exact sizeExampleRequest (by rw [hv]; norm_num)
    (by rw [hv]; norm_num)
  rw [hv] at h
  exact ⟨by simpa using h.1, (h.2 (by decide)).2⟩

/-- C5, counterexample: a content length of `-2` is added although it is
negative, and the result is negative where the specification's sum is `0`; a
content length of `2 ^ 63 - 1` makes the 64-bit sum overflow to a negative
result. -/
theorem getRequestSize_negative :
    getRequestSize ⟨[], some [], [], [], [], -2⟩ = -2 ∧
      specRequestSize ⟨[], some [], [], [], [], -2⟩ = 0 ∧
      getRequestSize ⟨goString "G", some [], [], [], [], 2 ^ 63 - 1⟩ = -2 ^ 63 ∧
      specRequestSize ⟨goString "G", some [], [], [], [], 2 ^ 63 - 1⟩ = 2 ^ 63 := by
  refine ⟨?_, by decide, ?_, by decide⟩
  · have hv : wrapInt (exactRequestSize ⟨[], some [], [], [], [], -2⟩) = -2 := by decide
    rw [getRequestSize_eq_wrap, hv]
    have := f64_intCast (-2) (by norm_num) (by norm_num)
    simpa using this
  · have hv :
        wrapInt (exactRequestSize ⟨goString "G", some [], [], [], [], 2 ^ 63 - 1⟩)
          = -2 ^ 63 := by
      decide
    rw [getRequestSize_eq_wrap, hv]
    have h1 := f64_dyadic 1 63 (by norm_num) (by norm_num)
    have h2 := f64_neg ((1 : ℕ) * 2 ^ (63 : ℤ))
    rw [h1] at h2
    norm_num at h2 ⊢
    exact h2

/-! ## Request interceptor: proofs -/

/-- The state that `GinMetricMiddleware` leaves behind when the labels are
valid UTF-8, given what the rest of the handler chain returned and the path
computed by `parseRequestUrl`. -/
theorem GinMetricMiddleware_eq (next : Context → Metrics → Context × Metrics)
    (elapsed : ℤ) (c c1 : Context) (m m1 : Metrics) (path : GoString)
    (hnext : next c m = (c1, m1)) (hpath : parseRequestUrl c1 = some path)
    (hvm : utf8ValidString c1.Request.Method = true) (hvp : utf8ValidString path = true) :
    GinMetricMiddleware next elapsed c m
      = some (c1,
          { m1 with
            HttpReqTotal :=
              inc m1.HttpReqTotal (c1.Request.Method, path, strconvItoa c1.WriterStatus)
            HttpReqDuration :=
              observe m1.HttpReqDuration (c1.Request.Method, path) (timeSince elapsed)
            HttpResponseBytes :=
              observe m1.HttpResponseBytes (c1.Request.Method, path) (f64 c1.WriterSize)
            HttpReqBytes :=
              observe m1.HttpReqBytes (c1.Request.Method, path)
                (getRequestSize c1.Request) }) := by
  unfold GinMetricMiddleware
  rw [hnext]
  simp only [hpath, incWith, observeWith, labels2, labels3, List.all_cons, List.all_nil,
    hvm, hvp, utf8ValidString_strconvItoa, Bool.and_self, if_true]

/-- The interceptor panics when the method or the normalised path is not valid
UTF-8: the first call of `With` fails and nothing is recorded. -/
theorem GinMetricMiddleware_invalid (next : Context → Metrics → Context × Metrics)
    (elapsed : ℤ) (c c1 : Context) (m m1 : Metrics) (path : GoString)
    (hnext : next c m = (c1, m1)) (hpath : parseRequestUrl c1 = some path)
    (hv : (utf8ValidString c1.Request.Method && utf8ValidString path) = false) :
    GinMetricMiddleware next elapsed c m = none := by
  unfold GinMetricMiddleware
  rw [hnext]
  have hall : ([c1.Request.Method, path, strconvItoa c1.WriterStatus].all utf8ValidString)
      = false := by
    simp only [List.all_cons, List.all_nil, Bool.and_true, ← Bool.and_assoc, hv,
      Bool.false_and]
  simp only [hpath, incWith, labels3, hall, Bool.false_eq_true, if_false]

/-- The interceptor returns normally exactly when the method and the normalised
path are valid UTF-8. -/
theorem GinMetricMiddleware_isSome (next : Context → Metrics → Context × Metrics)
    (elapsed : ℤ) (c c1 : Context) (m m1 : Metrics) (path : GoString)
    (hnext : next c m = (c1, m1)) (hpath : parseRequestUrl c1 = some path) :
    (GinMetricMiddleware next elapsed c m).isSome
      = (utf8ValidString c1.Request.Method && utf8ValidString path) := by
  cases hv : (utf8ValidString c1.Request.Method && utf8ValidString path) with
  | false =>
    rw [GinMetricMiddleware_invalid next elapsed c c1 m m1 path hnext hpath hv]
    rfl
  | true =>
    rw [Bool.and_eq_true] at hv
    rw [GinMetricMiddleware_eq next elapsed c c1 m m1 path hnext hpath hv.1 hv.2]
    rfl

/-- C9, amended: after the rest of the handler chain has returned context `c1`
and metric state `m1`, for a request whose method and normalised path `path`
(the path with the bound parameters substituted) are valid UTF-8, the
interceptor returns normally, increments `HttpReqTotal` by one at (method,
`path`, status as decimal string) and nowhere else, adds one observation at
(method, `path`) to `HttpReqDuration` (the clamped duration), `HttpReqBytes`
(the request size) and `HttpResponseBytes` (the bytes written) and to no other
series of these, and leaves `DatabaseDuration` and `FuncDuration` unchanged. -/
theorem GinMetricMiddleware_records (next : Context → Metrics → Context × Metrics)
    (elapsed : ℤ) (c c1 : Context) (m m1 : Metrics) (rawpath path : GoString)
    (hnext : next c m = (c1, m1)) (hurl : c1.Request.URL = some rawpath)
    (hsub : Substituted rawpath c1.Params path)
    (hvm : utf8ValidString c1.Request.Method = true)
    (hvp : utf8ValidString path = true) :
    parseRequestUrl c1 = some path ∧
      ∃ status m2, IsDecimal c1.WriterStatus status ∧
        GinMetricMiddleware next elapsed c m = some (c1, m2) ∧
        (∀ k, m2.HttpReqTotal k = m1.HttpReqTotal k +
          (if k = (c1.Request.Method, path, status) then 1 else 0)) ∧
        (∀ k, m2.HttpReqDuration k =
          if k = (c1.Request.Method, path) then timeSince elapsed :: m1.HttpReqDuration k
          else m1.HttpReqDuration k) ∧
        (∀ k, m2.HttpReqBytes k =
          if k = (c1.Request.Method, path) then
            getRequestSize c1.Request :: m1.HttpReqBytes k
          else m1.HttpReqBytes k) ∧
        (∀ k, m2.HttpResponseBytes k =
          if k = (c1.Request.Method, path) then
            f64 c1.WriterSize :: m1.HttpResponseBytes k
          else m1.HttpResponseBytes k) ∧
        m2.DatabaseDuration = m1.DatabaseDuration ∧
        m2.FuncDuration = m1.FuncDuration := by
  have hpath : parseRequestUrl c1 = some path := by
    unfold parseRequestUrl
    rw [hurl, (substituted_iff _ _ _).mp hsub]
  refine ⟨hpath, strconvItoa c1.WriterStatus, _, strconvItoa_decimal _,
    GinMetricMiddleware_eq next elapsed c c1 m m1 path hnext hpath hvm hvp,
    ?_, ?_, ?_, ?_, rfl, rfl⟩
  · intro k
    simp only [inc]
    split_ifs <;> rfl
  · intro k
    rfl
  · intro k
    rfl
  · intro k
    rfl

/-- C9, example: the request for `/users/42/profile` with `id = 42` is
recorded under `/users/:id/profile`. -/
theorem GinMetricMiddleware_records_witness :
    parseRequestUrl boundExampleContext = some (goString "/users/:id/profile") ∧
      ∃ status m2, IsDecimal boundExampleContext.WriterStatus status ∧
        GinMetricMiddleware idleNext 5 boundExampleContext initMetrics
          = some (boundExampleContext, m2) ∧
        (∀ k, m2.HttpReqTotal k = initMetrics.HttpReqTotal k +
          (if k = (boundExampleContext.Request.Method, goString "/users/:id/profile",
              status) then 1 else 0)) ∧
        (∀ k, m2.HttpReqDuration k =
          if k = (boundExampleContext.Request.Method, goString "/users/:id/profile") then
            timeSince 5 :: initMetrics.HttpReqDuration k
          else initMetrics.HttpReqDuration k) ∧
        (∀ k, m2.HttpReqBytes k =
          if k = (boundExampleContext.Request.Method, goString "/users/:id/profile") then
            getRequestSize boundExampleContext.Request :: initMetrics.HttpReqBytes k
          else initMetrics.HttpReqBytes k) ∧
        (∀ k, m2.HttpResponseBytes k =
          if k = (boundExampleContext.Request.Method, goString "/users/:id/profile") then
            f64 boundExampleContext.WriterSize :: initMetrics.HttpResponseBytes k
          else initMetrics.HttpResponseBytes k) ∧
        m2.DatabaseDuration = initMetrics.DatabaseDuration ∧
        m2.FuncDuration = initMetrics.FuncDuration :=
  GinMetricMiddleware_records idleNext 5 boundExampleContext boundExampleContext
    initMetrics initMetrics (goString "/users/42/profile") (goString "/users/:id/profile")
    rfl rfl ((substituted_iff _ _ _).mpr (by decide)) (by decide) (by decide)

/-- C9, counterexample: the request `GET /%ff` has the path `/` `0xFF`, which
is not valid UTF-8; the first `With` panics and the interceptor records
nothing. -/
theorem GinMetricMiddleware_invalid_path :
    invalidPathContext.Request.URL = some [47, 0xFF] ∧
      parseRequestUrl invalidPathContext = some [47, 0xFF] ∧
      utf8ValidString [47, 0xFF] = false ∧
      GinMetricMiddleware idleNext 5 invalidPathContext initMetrics = none :=
  ⟨rfl, by decide, by decide,
    GinMetricMiddleware_invalid idleNext 5 invalidPathContext invalidPathContext
      initMetrics initMetrics [47, 0xFF] rfl (by decide) (by decide)⟩

/-- The labels of the example request: the counter is incremented at
`GET`, `/users/:id/profile`, `200`. -/
theorem GinMetricMiddleware_example_labels :
    (GinMetricMiddleware idleNext 5 boundExampleContext initMetrics).map
        (fun r =>
          (r.2.HttpReqTotal (goString "GET", goString "/users/:id/profile", goString "200"),
            r.2.HttpReqTotal (goString "GET", goString "/users/42/profile", goString "200")))
      = some (1, 0) := by
  decide

/-- C6, amended: for a request without bound route parameters the interceptor
records under the request path itself: `parseRequestUrl` returns the path
unchanged; the interceptor returns normally exactly when method and path are
valid UTF-8, and then the counter at (method, path, status) has grown by one
and each of the three histograms at (method, path) has received its
observation. -/
theorem GinMetricMiddleware_unbound (next : Context → Metrics → Context × Metrics)
    (elapsed : ℤ) (c c1 : Context) (m m1 : Metrics) (rawpath : GoString)
    (hnext : next c m = (c1, m1)) (hurl : c1.Request.URL = some rawpath)
    (hps : c1.Params = []) :
    parseRequestUrl c1 = some rawpath ∧
      (GinMetricMiddleware next elapsed c m).isSome
        = (utf8ValidString c1.Request.Method && utf8ValidString rawpath) ∧
      ∀ r, GinMetricMiddleware next elapsed c m = some r →
        r.1 = c1 ∧
        r.2.HttpReqTotal (c1.Request.Method, rawpath, strconvItoa c1.WriterStatus)
          = m1.HttpReqTotal (c1.Request.Method, rawpath, strconvItoa c1.WriterStatus) + 1 ∧
        r.2.HttpReqDuration (c1.Request.Method, rawpath)
          = timeSince elapsed :: m1.HttpReqDuration (c1.Request.Method, rawpath) ∧
        r.2.HttpReqBytes (c1.Request.Method, rawpath)
          = getRequestSize c1.Request :: m1.HttpReqBytes (c1.Request.Method, rawpath) ∧
        r.2.HttpResponseBytes (c1.Request.Method, rawpath)
          = f64 c1.WriterSize :: m1.HttpResponseBytes (c1.Request.Method, rawpath) := by
  have hpath := parseRequestUrl_no_params c1 rawpath hurl hps
  have hsome := GinMetricMiddleware_isSome next elapsed c c1 m m1 rawpath hnext hpath
  refine ⟨hpath, hsome, ?_⟩
  intro r hr
  have hv : (utf8ValidString c1.Request.Method && utf8ValidString rawpath) = true := by
    rw [← hsome, hr]
    rfl
  rw [Bool.and_eq_true] at hv
  rw [GinMetricMiddleware_eq next elapsed c c1 m m1 rawpath hnext hpath hv.1 hv.2] at hr
  have hr2 := (Option.some.inj hr).symm
  subst hr2
  refine ⟨rfl, ?_, ?_, ?_, ?_⟩
  · simp [inc]
  · simp [observe]
  · simp [observe]
  · simp [observe]

/-- C6, example: the request for `/api/v1/users/123` without bound
parameters. -/
theorem GinMetricMiddleware_unbound_witness :
    parseRequestUrl unboundExampleContext = some (goString "/api/v1/users/123") ∧
      (GinMetricMiddleware idleNext 5 unboundExampleContext initMetrics).isSome
        = (utf8ValidString unboundExampleContext.Request.Method
            && utf8ValidString (goString "/api/v1/users/123")) ∧
      ∀ r, GinMetricMiddleware idleNext 5 unboundExampleContext initMetrics = some r →
        r.1 = unboundExampleContext ∧
        r.2.HttpReqTotal (unboundExampleContext.Request.Method,
            goString "/api/v1/users/123", strconvItoa unboundExampleContext.WriterStatus)
          = initMetrics.HttpReqTotal (unboundExampleContext.Request.Method,
              goString "/api/v1/users/123",
              strconvItoa unboundExampleContext.WriterStatus) + 1 ∧
        r.2.HttpReqDuration
            (unboundExampleContext.Request.Method, goString "/api/v1/users/123")
          = timeSince 5 ::
            initMetrics.HttpReqDuration
              (unboundExampleContext.Request.Method, goString "/api/v1/users/123") ∧
        r.2.HttpReqBytes
            (unboundExampleContext.Request.Method, goString "/api/v1/users/123")
          = getRequestSize unboundExampleContext.Request ::
            initMetrics.HttpReqBytes
              (unboundExampleContext.Request.Method, goString "/api/v1/users/123") ∧
        r.2.HttpResponseBytes
            (unboundExampleContext.Request.Method, goString "/api/v1/users/123")
          = f64 unboundExampleContext.WriterSize ::
            initMetrics.HttpResponseBytes
              (unboundExampleContext.Request.Method, goString "/api/v1/users/123") :=
  GinMetricMiddleware_unbound idleNext 5 unboundExampleContext unboundExampleContext
    initMetrics initMetrics (goString "/api/v1/users/123") rfl rfl rfl

/-- C6, counterexample: for the request `/api/v1/users/123` without bound
parameters the path label is the raw path, not its truncation `/api/v1`: the
counter grows at the raw path and stays 0 at the truncated one. -/
theorem GinMetricMiddleware_not_truncated :
    unboundExampleContext.Params = [] ∧
      parseRequestUrl unboundExampleContext = some (goString "/api/v1/users/123") ∧
      extractRequestPath (goString "/api/v1/users/123") = some (goString "/api/v1") ∧
      (GinMetricMiddleware idleNext 5 unboundExampleContext initMetrics).map
          (fun r =>
            (r.2.HttpReqTotal
                (goString "GET", goString "/api/v1/users/123", goString "200"),
              r.2.HttpReqTotal (goString "GET", goString "/api/v1", goString "200")))
        = some (1, 0) := by
  decide

/-! ## Scoped timers: proofs -/

theorem invokeAll_nilFunc (readings : List ℤ) (m : Metrics) :
    invokeAll nilFunc readings m = some m := by
  unfold invokeAll
  induction readings with
  | nil => rfl
  | cons e es ih =>
    rw [List.foldlM_cons]
    exact ih

/-- C8: the finalizers returned for an empty name by
`SetDatabaseDurationStatsWrap`, `NewDatabaseDurationStats`,
`SetFuncDurationStatsWrap` and `NewFuncDurationStats` return normally and
leave the whole metric state unchanged, for every filter, every argument list
and every sequence of invocations (one clock reading for each invocation). -/
theorem empty_name_finalizer_noop {α : Type} (render : α → GoString)
    (toLower : GoString → GoString) (filter : GoString) (args : List α)
    (readings : List ℤ) (m : Metrics) :
    invokeAll (SetDatabaseDurationStatsWrap render toLower [] filter args) readings m
        = some m ∧
      invokeAll (NewDatabaseDurationStats render toLower [] filter args) readings m
        = some m ∧
      invokeAll (SetFuncDurationStatsWrap render [] args) readings m = some m ∧
      invokeAll (NewFuncDurationStats render [] args) readings m = some m := by
  have hdb : SetDatabaseDurationStatsWrap render toLower [] filter args = nilFunc := by
    unfold SetDatabaseDurationStatsWrap
    rw [if_pos rfl]
  have hfn : SetFuncDurationStatsWrap render [] args = nilFunc := by
    unfold SetFuncDurationStatsWrap
    rw [if_pos rfl]
  unfold NewDatabaseDurationStats NewFuncDurationStats
  rw [hdb, hfn]
  exact ⟨invokeAll_nilFunc readings m, invokeAll_nilFunc readings m,
    invokeAll_nilFunc readings m, invokeAll_nilFunc readings m⟩

/-- With a name that is not empty the finalizer does record: for labels that
are valid UTF-8 one observation is added to `FuncDuration`. -/
theorem SetFuncDurationStatsWrap_records {α : Type} (render : α → GoString)
    (fn : GoString) (args : List α) (elapsed : ℤ) (m : Metrics) (h : fn ≠ [])
    (hvf : utf8ValidString fn = true)
    (hva : utf8ValidString (formatArgs render args) = true) :
    ∃ m2, SetFuncDurationStatsWrap render fn args elapsed m = some m2 ∧
      m2.FuncDuration (fn, formatArgs render args)
        = timeSince elapsed :: m.FuncDuration (fn, formatArgs render args) := by
  unfold SetFuncDurationStatsWrap
  rw [if_neg h]
  simp [SetFuncDurationStats, observeWith, labels2, hvf, hva, observe]

end GoStats
